import Mathlib

/-!
Shallow embedding of `main.py` from csv-to-cospend.

The embedding covers the parts of the program the specification's claims
are about: the `Payment` record, the amount parser inside
`csv_to_payment`, the rule engine `simplify_payment`, the snapshot
serialisation (`Payment.to_json` / `Payment.from_json`, `persist`, and
the load comprehension used by `classify`/`push`), and the interactive
triage loop `classify_payments`.

Strings are modelled with Lean `String` (a wrapper around `List Char`);
Python's `str.lower` is modelled by mapping `Char.toLower`, and Python's
substring operator `in` by an explicit character-list search.  Python's
`Decimal` arithmetic is modelled with `ℚ` (exact rational arithmetic,
which coincides with decimal arithmetic on the decimal fractions that
occur here), and `int(...)` by truncation toward zero.  Mutable Python
objects are modelled by explicit state passing; the one place where
object aliasing is observable (the in-place `payment.category`
assignment under the `c` command reaching `items[idx]` when
`simplify_payment` returned its argument unchanged) is modelled by
threading the stored list entry through the inner loop together with an
aliasing flag.
-/

/-- Calendar date, modelling `datetime.date` (year, month, day). -/
structure Date where
  year : Nat
  month : Nat
  day : Nat
deriving DecidableEq, Repr

/-- The central transaction record, modelling the `Payment` dataclass of
`main.py`: date, raw payee, display name, reference text, amount in
cents, and an optional category. -/
structure Payment where
  date : Date
  payee : String
  payee_friendly : String
  reference : String
  amount : Int
  category : Option String
deriving DecidableEq, Repr

/-- The `result` table of a naming rule from `config.toml`: optional
`name` and optional `category`. -/
structure RuleResult where
  name : Option String
  category : Option String
deriving DecidableEq, Repr

/-- A naming rule from `config.toml`: optional `payee_contains`,
optional `reference_contains`, and a `result` table. -/
structure Rule where
  payee_contains : Option String
  reference_contains : Option String
  result : RuleResult
deriving DecidableEq, Repr

/-- Whether `needle` is a prefix of `hay`, on character lists. -/
def strStarts : List Char → List Char → Bool
  | [], _ => true
  | _ :: _, [] => false
  | a :: as, b :: bs => a == b && strStarts as bs

/-- Whether `needle` occurs as a contiguous substring of `hay`, on
character lists; this is Python's `needle in hay` on strings. -/
def strHas (needle : List Char) : List Char → Bool
  | [] => needle.isEmpty
  | b :: rest => strStarts needle (b :: rest) || strHas needle rest

/-- Python's `needle.lower() in hay.lower()`. -/
def containsLower (needle hay : String) : Bool :=
  strHas (needle.data.map Char.toLower) (hay.data.map Char.toLower)

/-- The `payee_contains` test of `simplify_payment`, as a function of the
record's `payee` field: `rule.get("payee_contains").lower() in
payment.payee.lower()` (and false when the key is absent). -/
def matchPayeePa (r : Rule) (pa : String) : Bool :=
  match r.payee_contains with
  | none => false
  | some s => containsLower s pa

/-- The `reference_contains` test of `simplify_payment`.  The source
tests `rule.get("reference_contains").lower() in payment.payee.lower()`,
i.e. against the `payee` field, not the `reference` field. -/
def matchRefPa (r : Rule) (pa : String) : Bool :=
  match r.reference_contains with
  | none => false
  | some s => containsLower s pa

/-- Whether either branch of `simplify_payment` fires for a record whose
`payee` field is `pa`. -/
def matchesPa (r : Rule) (pa : String) : Bool :=
  matchPayeePa r pa || matchRefPa r pa

/-- The `dataclasses.replace` call of `simplify_payment`:
`payee_friendly` becomes `rule["result"].get("name", payment.payee)` and
`category` becomes `rule["result"].get("category", payment.category)`. -/
def replaceP (p : Payment) (r : Rule) : Payment :=
  { p with
    payee_friendly := r.result.name.getD p.payee,
    category := match r.result.category with
      | some c => some c
      | none => p.category }

/-- One iteration of the `for rule in config["naming"]["rule"]` loop of
`simplify_payment`, threading together the current record and a flag
recording whether any `dataclasses.replace` has executed (i.e. whether
the returned object is a fresh copy rather than the caller's object). -/
def apply_ruleF (pf : Payment × Bool) (r : Rule) : Payment × Bool :=
  let pf1 := if matchPayeePa r pf.1.payee then (replaceP pf.1 r, true) else pf
  if matchRefPa r pf1.1.payee then (replaceP pf1.1 r, true) else pf1

/-- The loop of `simplify_payment` over the whole rule list, returning
the resulting record together with the fired flag. -/
def simplify_paymentF (rules : List Rule) (p : Payment) : Payment × Bool :=
  rules.foldl apply_ruleF (p, false)

/-- `simplify_payment`: the rule engine, a left fold of `apply_ruleF`
over the configured rule list. -/
def simplify_payment (rules : List Rule) (p : Payment) : Payment :=
  (simplify_paymentF rules p).1

/-- Whether any rule branch fired on `p`, i.e. whether
`simplify_payment` returned a fresh object rather than its argument. -/
def ruleFired (rules : List Rule) (p : Payment) : Bool :=
  (simplify_paymentF rules p).2

/-! ## Amount parser

`csv_to_payment` computes
`int(-(Decimal(row[...].replace(",", ".")) * 100))`.  The model replaces
every comma with a period, parses the result as an exact decimal number
(sign, integer digits, optional fraction digits — the forms that occur
in amount columns; `Decimal`'s exponent and whitespace forms are outside
the amount grammar and not modelled), multiplies by 100, negates, and
truncates toward zero as Python's `int()` does. -/

/-- The numeric value of an ASCII digit, or `none`. -/
def digitVal? (c : Char) : Option Nat :=
  if '0' ≤ c ∧ c ≤ '9' then some (c.toNat - 48) else none

/-- Accumulating base-10 read of a digit string. -/
def digitsValAux : Nat → List Char → Option Nat
  | acc, [] => some acc
  | acc, c :: rest =>
    match digitVal? c with
    | some d => digitsValAux (acc * 10 + d) rest
    | none => none

/-- Base-10 value of a non-empty all-digit string, `none` otherwise. -/
def digitsVal? (cs : List Char) : Option Nat :=
  if cs.isEmpty then none else digitsValAux 0 cs

/-- Total base-10 value of a digit string (used only in statements). -/
def digitsVal (cs : List Char) : Nat :=
  cs.foldl (fun a c => a * 10 + (c.toNat - 48)) 0

/-- Value of an integer part / fraction part pair with a sign, as an
exact rational; `none` when both parts are empty or a part holds a
non-digit. -/
def decCore (intPart frac : List Char) (sign : ℚ) : Option ℚ :=
  if intPart.isEmpty && frac.isEmpty then none
  else
    match (if intPart.isEmpty then some 0 else digitsVal? intPart),
          (if frac.isEmpty then some 0 else digitsVal? frac) with
    | some i, some f => some (sign * ((i : ℚ) + (f : ℚ) / 10 ^ frac.length))
    | _, _ => none

/-- Split a character string at its first decimal point: the part
before it, and the part after it when one exists. -/
def splitIntFrac : List Char → List Char × Option (List Char)
  | [] => ([], none)
  | c :: rest =>
    if c = '.' then ([], some rest)
    else
      let p := splitIntFrac rest
      (c :: p.1, p.2)

/-- Parse of the sign-free part of a decimal string: integer digits
with at most one decimal point. -/
def decBody (body : List Char) (sign : ℚ) : Option ℚ :=
  match splitIntFrac body with
  | (intPart, none) => decCore intPart [] sign
  | (intPart, some frac) =>
    if frac.contains '.' then none else decCore intPart frac sign

/-- Exact decimal parse of a character string: optional sign, then
digits with at most one decimal point. -/
def decimalVal? (cs : List Char) : Option ℚ :=
  match cs with
  | [] => none
  | c :: rest =>
    if c = '-' then decBody rest (-1)
    else if c = '+' then decBody rest 1
    else decBody (c :: rest) 1

/-- Truncation toward zero, Python's `int()` on an exact number. -/
def truncQ (q : ℚ) : ℤ :=
  if 0 ≤ q then ⌊q⌋ else ⌈q⌉

/-- The amount computation of `csv_to_payment`:
`int(-(Decimal(s.replace(",", ".")) * 100))`, with `none` standing for
the `InvalidOperation` raised on malformed text. -/
def parse_amount (s : String) : Option ℤ :=
  (decimalVal? (s.data.map (fun c => if c = ',' then '.' else c))).map
    (fun v => truncQ (-(v * 100)))

/-! ## Snapshot serialisation

`Payment.to_json` renders the record with `str(date)` (ISO 8601,
zero-padded `YYYY-MM-DD`) and all other fields verbatim;
`Payment.from_json` parses the date back with
`datetime.datetime.strptime(_, "%Y-%m-%d")`, which fails on anything
that is not a well-formed calendar date.  `persist` writes the list of
rendered records; the load comprehension
`[Payment.from_json(x) for x in json.load(f)]` of `classify`/`push`
parses them back, failing as a whole on the first bad element. -/

/-- Rendering of a single decimal digit. -/
def digitChar : Nat → Char
  | 0 => '0' | 1 => '1' | 2 => '2' | 3 => '3' | 4 => '4'
  | 5 => '5' | 6 => '6' | 7 => '7' | 8 => '8' | _ => '9'

/-- Two-digit zero-padded rendering, as in `%02d` for values `≤ 99`. -/
def pad2 (n : Nat) : List Char :=
  [digitChar (n / 10), digitChar (n % 10)]

/-- Four-digit zero-padded rendering, as in `%04d` for values `≤ 9999`. -/
def pad4 (n : Nat) : List Char :=
  [digitChar (n / 1000), digitChar (n / 100 % 10),
   digitChar (n / 10 % 10), digitChar (n % 10)]

/-- Whether `y` is a leap year in the proleptic Gregorian calendar used
by `datetime.date`. -/
def isLeap (y : Nat) : Bool :=
  y % 4 = 0 && (y % 100 ≠ 0 || y % 400 = 0)

/-- Number of days of month `m` of year `y`. -/
def daysInMonth (y m : Nat) : Nat :=
  if m = 2 then (if isLeap y then 29 else 28)
  else if m = 4 ∨ m = 6 ∨ m = 9 ∨ m = 11 then 30
  else 31

/-- The validity invariant `datetime.date` enforces on construction:
year in `MINYEAR..MAXYEAR` and a real calendar day. -/
def Date.valid (d : Date) : Bool :=
  decide (1 ≤ d.year ∧ d.year ≤ 9999 ∧ 1 ≤ d.month ∧ d.month ≤ 12 ∧
    1 ≤ d.day ∧ d.day ≤ daysInMonth d.year d.month)

/-- `str(date)`: the ISO 8601 rendering `YYYY-MM-DD`. -/
def Date.toIso (d : Date) : String :=
  ⟨pad4 d.year ++ '-' :: pad2 d.month ++ '-' :: pad2 d.day⟩

/-- `datetime.datetime.strptime(s, "%Y-%m-%d").date()` on the canonical
zero-padded form: four year digits, a dash, two month digits, a dash,
two day digits, then the `datetime.date` validity check.  (`strptime`
also accepts unpadded month and day; snapshots only ever contain the
canonical padded rendering, which is what the model covers.) -/
def parseIsoChars : List Char → Option Date
  | y1 :: y2 :: y3 :: y4 :: s1 :: m1 :: m2 :: s2 :: d1 :: d2 :: rest =>
    if s1 = '-' ∧ s2 = '-' ∧ rest = [] then
      (digitVal? y1).bind fun a =>
      (digitVal? y2).bind fun b =>
      (digitVal? y3).bind fun c =>
      (digitVal? y4).bind fun e =>
      (digitVal? m1).bind fun f =>
      (digitVal? m2).bind fun g =>
      (digitVal? d1).bind fun h =>
      (digitVal? d2).bind fun i =>
      let dt : Date := ⟨a * 1000 + b * 100 + c * 10 + e, f * 10 + g, h * 10 + i⟩
      if dt.valid then some dt else none
    else none
  | _ => none

/-- String-level wrapper of `parseIsoChars`. -/
def parseIsoDate (s : String) : Option Date :=
  parseIsoChars s.data

/-- The external representation of one snapshot array element. -/
structure PaymentJson where
  date : String
  payee : String
  payee_friendly : String
  reference : String
  amount : Int
  category : Option String
deriving DecidableEq, Repr

/-- `Payment.to_json`: `dataclasses.asdict` with `date` stringified. -/
def Payment.to_json (p : Payment) : PaymentJson :=
  ⟨p.date.toIso, p.payee, p.payee_friendly, p.reference, p.amount, p.category⟩

/-- `Payment.from_json`: all fields verbatim, the date parsed back. -/
def Payment.from_json (j : PaymentJson) : Option Payment :=
  (parseIsoDate j.date).map
    (fun d => ⟨d, j.payee, j.payee_friendly, j.reference, j.amount, j.category⟩)

/-- `persist`: the serialised snapshot of an ordered record sequence. -/
def persist (ps : List Payment) : List PaymentJson :=
  ps.map Payment.to_json

/-- The load comprehension `[Payment.from_json(x) for x in json.load(f)]`
of `classify`/`push`: parses every element, failing as a whole when an
element fails. -/
def load : List PaymentJson → Option (List Payment)
  | [] => some []
  | j :: rest =>
    match Payment.from_json j, load rest with
    | some p, some ps => some (p :: ps)
    | _, _ => none

/-! ## Triage state machine

`classify_payments` reverses the ingested list, then for each record
applies `simplify_payment` and enters an inner loop reading operator
commands.  The operator's input is modelled as a list of commands; a run
returns `none` when the command list runs out before every record has
received a terminal decision (the program would block on `input()`).

The inner loop threads three pieces of Python state: the local variable
`payment`, the stored list entry `items[idx]`, and whether the two are
the same object.  They alias exactly when no rule branch fired, because
only `dataclasses.replace` creates a fresh object; the command
`c` assigns `payment.category` in place, which reaches `items[idx]`
precisely in the aliased case, and `q` extends `second_look` with
`items[idx:]`, i.e. with the stored entry, not with `payment`. -/

/-- One operator input line of `classify_payments`: `a`, `c` followed by
a category keystroke, `e` together with the record the external editor
produces, `j`, `x`, `q`, or any other (re-prompting) input. -/
inductive Cmd where
  | a
  | c (k : String)
  | e (p : Payment)
  | j
  | x
  | q
  | other
deriving DecidableEq, Repr

/-- The `categories.get(input())` lookup of the `c` command:
`g` ↦ grocery, `s` ↦ shopping, anything else ↦ `None`. -/
def categoryOf (k : String) : Option String :=
  if k = "g" then some "grocery" else if k = "s" then some "shopping" else none

/-- The terminal outcome of one inner decision loop: which bucket the
record went to and with which value; `quit` carries the value of the
stored list entry `items[idx]` at the moment `q` was entered. -/
inductive Decision where
  | approved (p : Payment)
  | secondLook (p : Payment)
  | ignored (p : Payment)
  | quit (stored : Payment)
deriving DecidableEq, Repr

/-- The inner `while True` decision loop of `classify_payments` for one
record: `item` is the stored entry `items[idx]`, `payment` the local
display copy, `aliased` whether they are the same Python object. -/
def runInner (item payment : Payment) (aliased : Bool) :
    List Cmd → Option (Decision × List Cmd)
  | [] => none
  | cmd :: rest =>
    match cmd with
    | .a => some (.approved payment, rest)
    | .c k =>
      runInner
        (if aliased then { item with category := categoryOf k } else item)
        { payment with category := categoryOf k } aliased rest
    | .e p2 => some (.approved p2, rest)
    | .j => some (.secondLook payment, rest)
    | .x => some (.ignored payment, rest)
    | .q => some (.quit item, rest)
    | .other => runInner item payment aliased rest

/-- The three outcome buckets of `classify_payments`. -/
structure TriageState where
  approved : List Payment
  second_look : List Payment
  ignore : List Payment
deriving DecidableEq, Repr

/-- The outer `for idx, payment in enumerate(items)` loop of
`classify_payments` over the (already reversed) item list: on `quit` the
stored entry and every remaining item go to `second_look` and both
loops end. -/
def runOuter (rules : List Rule) :
    List Payment → List Cmd → TriageState → Option TriageState
  | [], _, st => some st
  | item :: restItems, script, st =>
    let pf := simplify_paymentF rules item
    match runInner item pf.1 (!pf.2) script with
    | none => none
    | some (.approved p, rest) =>
      runOuter rules restItems rest { st with approved := st.approved ++ [p] }
    | some (.secondLook p, rest) =>
      runOuter rules restItems rest
        { st with second_look := st.second_look ++ [p] }
    | some (.ignored p, rest) =>
      runOuter rules restItems rest { st with ignore := st.ignore ++ [p] }
    | some (.quit stored, _) =>
      some { st with second_look := st.second_look ++ (stored :: restItems) }

/-- `classify_payments`: reverse the ingested sequence, run the triage
loop with empty buckets, and return the three buckets (`none` when the
operator input runs out before the run completes). -/
def classify_payments (rules : List Rule) (payments : List Payment)
    (script : List Cmd) : Option TriageState :=
  runOuter rules payments.reverse script ⟨[], [], []⟩

/-! ### Provenance-instrumented triage run

To state that the buckets partition the *input records* — whose values
are rewritten by rule application, in-place category edits and manual
edits, but whose identity persists through those derived copies — the
same loop is repeated with each record carrying the ghost tag of its
ingestion position.  Erasing the tags recovers `classify_payments`
exactly (theorem `runOuterT_erase` below). -/

/-- A payment carrying the ghost index of the input record it descends
from. -/
abbrev TPayment := Nat × Payment

/-- Outcome of the inner loop in the instrumented run. -/
inductive DecisionT where
  | approved (p : TPayment)
  | secondLook (p : TPayment)
  | ignored (p : TPayment)
  | quit (stored : TPayment)
deriving DecidableEq, Repr

/-- The inner decision loop with provenance tags: every derived copy —
the `c` category write and the record the manual edit produces — keeps
the tag of the record it replaces. -/
def runInnerT (item payment : TPayment) (aliased : Bool) :
    List Cmd → Option (DecisionT × List Cmd)
  | [] => none
  | cmd :: rest =>
    match cmd with
    | .a => some (.approved payment, rest)
    | .c k =>
      runInnerT
        (if aliased then (item.1, { item.2 with category := categoryOf k })
         else item)
        (payment.1, { payment.2 with category := categoryOf k }) aliased rest
    | .e p2 => some (.approved (payment.1, p2), rest)
    | .j => some (.secondLook payment, rest)
    | .x => some (.ignored payment, rest)
    | .q => some (.quit item, rest)
    | .other => runInnerT item payment aliased rest

/-- The three buckets of the instrumented run. -/
structure TriageStateT where
  approved : List TPayment
  second_look : List TPayment
  ignore : List TPayment
deriving DecidableEq, Repr

/-- The outer loop with provenance tags; rule application keeps the
record's tag. -/
def runOuterT (rules : List Rule) :
    List TPayment → List Cmd → TriageStateT → Option TriageStateT
  | [], _, st => some st
  | item :: restItems, script, st =>
    let pf := simplify_paymentF rules item.2
    match runInnerT item (item.1, pf.1) (!pf.2) script with
    | none => none
    | some (.approved p, rest) =>
      runOuterT rules restItems rest { st with approved := st.approved ++ [p] }
    | some (.secondLook p, rest) =>
      runOuterT rules restItems rest
        { st with second_look := st.second_look ++ [p] }
    | some (.ignored p, rest) =>
      runOuterT rules restItems rest { st with ignore := st.ignore ++ [p] }
    | some (.quit stored, _) =>
      some { st with second_look := st.second_look ++ (stored :: restItems) }

/-- `classify_payments` with every input record tagged by its ingestion
position. -/
def classify_paymentsT (rules : List Rule) (payments : List Payment)
    (script : List Cmd) : Option TriageStateT :=
  runOuterT rules ((List.range payments.length).zip payments).reverse script
    ⟨[], [], []⟩

/-- Tag erasure on buckets. -/
def eraseState (st : TriageStateT) : TriageState :=
  ⟨st.approved.map Prod.snd, st.second_look.map Prod.snd,
   st.ignore.map Prod.snd⟩

/-- Tag erasure on inner-loop outcomes. -/
def eraseDec : DecisionT → Decision
  | .approved p => .approved p.2
  | .secondLook p => .secondLook p.2
  | .ignored p => .ignored p.2
  | .quit stored => .quit stored.2

/-- The ghost tag carried by an inner-loop outcome's payload. -/
def decTag : DecisionT → Nat
  | .approved p => p.1
  | .secondLook p => p.1
  | .ignored p => p.1
  | .quit stored => stored.1

/-- The ghost tags held by all three buckets together. -/
def bucketTags (st : TriageStateT) : List Nat :=
  (st.approved ++ st.second_look ++ st.ignore).map Prod.fst

/-! ## Statement apparatus

Derived forms of the rule-engine fold used to state and prove the
claims; `simplifyPure_eq` below ties them back to `simplify_payment`. -/

/-- The effect of one rule iteration on the record, without the fired
flag. -/
def applyPure (p : Payment) (r : Rule) : Payment :=
  if matchesPa r p.payee then replaceP p r else p

/-- The rule-engine fold without the fired flag. -/
def simplifyPure (rules : List Rule) (p : Payment) : Payment :=
  rules.foldl applyPure p

/-- Whether any rule of the list matches a record with payee `pa`. -/
def matchesAny (rules : List Rule) (pa : String) : Bool :=
  rules.any (fun r => matchesPa r pa)

/-- The net effect of a rule list on `payee_friendly` for a record with
payee `pa`: `some v` when some rule matches (`v` determined by the last
matching rule), `none` when no rule matches. -/
def nameEff (pa : String) : List Rule → Option String
  | [] => none
  | r :: rs =>
    match nameEff pa rs with
    | some v => some v
    | none => if matchesPa r pa then some (r.result.name.getD pa) else none

/-- The net effect of a rule list on `category` for a record with payee
`pa`: the category of the last matching rule that carries one. -/
def catEff (pa : String) : List Rule → Option String
  | [] => none
  | r :: rs =>
    match catEff pa rs with
    | some v => some v
    | none => if matchesPa r pa then r.result.category else none

/-- Commands that dispatch a record without touching `second_look`:
`a`, `e`, and `x`. -/
def preCmdOk : Cmd → Bool
  | .a => true
  | .e _ => true
  | .x => true
  | _ => false

/-! ## Rule-engine lemmas -/

theorem Payment_eq_of_fields (p q : Payment) (h1 : p.date = q.date)
    (h2 : p.payee = q.payee) (h3 : p.payee_friendly = q.payee_friendly)
    (h4 : p.reference = q.reference) (h5 : p.amount = q.amount)
    (h6 : p.category = q.category) : p = q := by
  cases p; cases q; simp_all

theorem replaceP_payee (p : Payment) (r : Rule) :
    (replaceP p r).payee = p.payee := rfl

theorem replaceP_replaceP (p : Payment) (r : Rule) :
    replaceP (replaceP p r) r = replaceP p r := by
  cases h : r.result.category <;> simp [replaceP, h]

theorem apply_ruleF_eq (p : Payment) (f : Bool) (r : Rule) :
    apply_ruleF (p, f) r = (applyPure p r, f || matchesPa r p.payee) := by
  cases hp : matchPayeePa r p.payee <;> cases hr : matchRefPa r p.payee <;>
    simp [apply_ruleF, applyPure, matchesPa, hp, hr, replaceP_payee,
      replaceP_replaceP]

theorem applyPure_payee (p : Payment) (r : Rule) :
    (applyPure p r).payee = p.payee := by
  unfold applyPure; split <;> simp [replaceP_payee]

theorem foldl_apply_ruleF (rules : List Rule) (p : Payment) (f : Bool) :
    rules.foldl apply_ruleF (p, f) =
      (simplifyPure rules p, f || matchesAny rules p.payee) := by
  induction rules generalizing p f with
  | nil => simp [simplifyPure, matchesAny]
  | cons r rs ih =>
    simp only [List.foldl_cons, apply_ruleF_eq, ih, simplifyPure,
      applyPure_payee, matchesAny, List.any_cons]
    simp [Bool.or_assoc]

theorem simplify_payment_eq (rules : List Rule) (p : Payment) :
    simplify_payment rules p = simplifyPure rules p := by
  simp [simplify_payment, simplify_paymentF, foldl_apply_ruleF]

theorem ruleFired_eq (rules : List Rule) (p : Payment) :
    ruleFired rules p = matchesAny rules p.payee := by
  simp [ruleFired, simplify_paymentF, foldl_apply_ruleF]

theorem simplifyPure_stable (rules : List Rule) (p : Payment) :
    (simplifyPure rules p).date = p.date ∧
    (simplifyPure rules p).payee = p.payee ∧
    (simplifyPure rules p).reference = p.reference ∧
    (simplifyPure rules p).amount = p.amount := by
  induction rules generalizing p with
  | nil => simp [simplifyPure]
  | cons r rs ih =>
    have h := ih (applyPure p r)
    simp only [simplifyPure, List.foldl_cons] at h ⊢
    cases hm : matchesPa r p.payee <;>
      simp_all [applyPure, replaceP]

theorem simplifyPure_pf (rules : List Rule) (p : Payment) :
    (simplifyPure rules p).payee_friendly =
      (nameEff p.payee rules).getD p.payee_friendly := by
  induction rules generalizing p with
  | nil => simp [simplifyPure, nameEff]
  | cons r rs ih =>
    have hpa : (applyPure p r).payee = p.payee := applyPure_payee p r
    have h := ih (applyPure p r)
    rw [hpa] at h
    simp only [simplifyPure, List.foldl_cons] at h ⊢
    rw [h]
    cases he : nameEff p.payee rs with
    | some v => simp [nameEff, he]
    | none =>
      cases hm : matchesPa r p.payee <;>
        simp [nameEff, he, hm, applyPure, replaceP]

theorem simplifyPure_cat (rules : List Rule) (p : Payment) :
    (simplifyPure rules p).category =
      (match catEff p.payee rules with
        | some c => some c
        | none => p.category) := by
  induction rules generalizing p with
  | nil => simp [simplifyPure, catEff]
  | cons r rs ih =>
    have hpa : (applyPure p r).payee = p.payee := applyPure_payee p r
    have h := ih (applyPure p r)
    rw [hpa] at h
    simp only [simplifyPure, List.foldl_cons] at h ⊢
    rw [h]
    cases he : catEff p.payee rs with
    | some v => simp [catEff, he]
    | none =>
      cases hm : matchesPa r p.payee
      · simp [catEff, he, hm, applyPure]
      · cases hc : r.result.category <;>
          simp [catEff, he, hm, hc, applyPure, replaceP]

/-! ## C1 — per-rule overwrite behaviour -/

/-- C1 counterexample: the claim says a matching rule without a result
`name` keeps `payee_friendly` at its current value; on the record with
`payee = "abc"` and `payee_friendly = "Nice"`, the matching rule
`{payee_contains := "a", result := {category := "cat"}}` (no name)
rewrites `payee_friendly` to `"abc"`, the raw payee, not the current
value `"Nice"`. -/
theorem claimC1_cex :
    matchesPa ⟨some "a", none, ⟨none, some "cat"⟩⟩ "abc" = true ∧
    (Rule.mk (some "a") none ⟨none, some "cat"⟩).result.name = none ∧
    (simplify_payment [⟨some "a", none, ⟨none, some "cat"⟩⟩]
        ⟨⟨2024, 1, 1⟩, "abc", "Nice", "ref", 0, none⟩).payee_friendly
      = "abc" ∧
    ("Nice" : String) ≠ "abc" := by
  refine ⟨by decide, rfl, ?_, by decide⟩
  rw [simplify_payment_eq, simplifyPure_pf]
  decide

/-- C1 (amended): when a rule matches, `payee_friendly` is overwritten
with the rule's result `name` if present and otherwise reset to the
record's raw `payee` (not kept at its current value); `category` is
overwritten with the rule's result `category` if present and otherwise
kept at its current value. -/
theorem claimC1 (p : Payment) (r : Rule) (h : matchesPa r p.payee = true) :
    (simplify_payment [r] p).payee_friendly = r.result.name.getD p.payee ∧
    (simplify_payment [r] p).category =
      (match r.result.category with
        | some c => some c
        | none => p.category) := by
  rw [simplify_payment_eq]
  refine ⟨?_, ?_⟩
  · rw [simplifyPure_pf]; simp [nameEff, h]
  · rw [simplifyPure_cat]; simp [catEff, h]

/-- Witness for `claimC1` at a concrete matching rule and record. -/
theorem claimC1_witness :
    matchesPa ⟨some "b", none, ⟨some "N", none⟩⟩ "abc" = true ∧
    ((simplify_payment [⟨some "b", none, ⟨some "N", none⟩⟩]
        ⟨⟨2024, 1, 1⟩, "abc", "abc", "ref", 0, some "old"⟩).payee_friendly
      = (Option.some "N").getD "abc" ∧
     (simplify_payment [⟨some "b", none, ⟨some "N", none⟩⟩]
        ⟨⟨2024, 1, 1⟩, "abc", "abc", "ref", 0, some "old"⟩).category
      = some "old") :=
  ⟨by decide,
   claimC1 ⟨⟨2024, 1, 1⟩, "abc", "abc", "ref", 0, some "old"⟩
     ⟨some "b", none, ⟨some "N", none⟩⟩ (by decide)⟩

/-! ## C2 — `reference_contains` tests the payee field -/

/-- C2: the `reference_contains` branch compares against the lowercase
`payee`, not the `reference`: the match test equals
`containsLower s payee`, and a rule whose `reference_contains` occurs in
the record's `reference` but not in its `payee` leaves the record
unchanged. -/
theorem claimC2 (p : Payment) (s : String) (res : RuleResult) :
    matchRefPa ⟨none, some s, res⟩ p.payee = containsLower s p.payee ∧
    (containsLower s p.reference = true → containsLower s p.payee = false →
      simplify_payment [⟨none, some s, res⟩] p = p) := by
  refine ⟨rfl, fun _ hp => ?_⟩
  rw [simplify_payment_eq]
  simp [simplifyPure, applyPure, matchesPa, matchPayeePa, matchRefPa, hp]

/-- Witness for `claimC2`: the needle `"xy"` occurs in the reference
`"xyz"` but not in the payee `"abc"`, and the rule does not fire. -/
theorem claimC2_witness :
    containsLower "xy" "xyz" = true ∧ containsLower "xy" "abc" = false ∧
    simplify_payment [⟨none, some "xy", ⟨some "N", some "C"⟩⟩]
        ⟨⟨2024, 1, 1⟩, "abc", "abc", "xyz", 0, none⟩
      = ⟨⟨2024, 1, 1⟩, "abc", "abc", "xyz", 0, none⟩ :=
  ⟨by decide, by decide,
   (claimC2 ⟨⟨2024, 1, 1⟩, "abc", "abc", "xyz", 0, none⟩ "xy"
       ⟨some "N", some "C"⟩).2 (by decide) (by decide)⟩

/-! ## C8 — last matching rule wins -/

/-- C8: for two rules that both match the record and carry different
result names, the fold applies both in order and the second rule's name
is the final `payee_friendly`. -/
theorem claimC8 (p : Payment) (r1 r2 : Rule) (n1 n2 : String)
    (h1 : matchesPa r1 p.payee = true) (h2 : matchesPa r2 p.payee = true)
    (hn1 : r1.result.name = some n1) (hn2 : r2.result.name = some n2)
    (hne : n1 ≠ n2) :
    (simplify_payment [r1, r2] p).payee_friendly = n2 ∧
    (simplify_payment [r1, r2] p).payee_friendly ≠ n1 := by
  have hpf : (simplify_payment [r1, r2] p).payee_friendly = n2 := by
    rw [simplify_payment_eq, simplifyPure_pf]
    simp [nameEff, h1, h2, hn2]
  exact ⟨hpf, by rw [hpf]; exact fun hc => hne hc.symm⟩

/-- Witness for `claimC8`: two rules matching payee `"abc"` with names
`"first"` and `"second"`; the fold ends with `"second"`. -/
theorem claimC8_witness :
    matchesPa ⟨some "a", none, ⟨some "first", none⟩⟩ "abc" = true ∧
    matchesPa ⟨some "b", none, ⟨some "second", none⟩⟩ "abc" = true ∧
    ("first" : String) ≠ "second" ∧
    (simplify_payment
        [⟨some "a", none, ⟨some "first", none⟩⟩,
         ⟨some "b", none, ⟨some "second", none⟩⟩]
        ⟨⟨2024, 1, 1⟩, "abc", "abc", "ref", 0, none⟩).payee_friendly
      = "second" :=
  ⟨by decide, by decide, by decide,
   (claimC8 ⟨⟨2024, 1, 1⟩, "abc", "abc", "ref", 0, none⟩
     ⟨some "a", none, ⟨some "first", none⟩⟩
     ⟨some "b", none, ⟨some "second", none⟩⟩
     "first" "second" (by decide) (by decide) rfl rfl (by decide)).1⟩

/-! ## C9 — idempotence of the rule engine -/

/-- C9: under a rule list whose results always supply both fields, the
rule engine is idempotent.  (The proof does not need the hypothesis:
matching depends only on the invariant `payee` field, and each matching
rule's effect on each field is either constant or the identity, so the
engine is idempotent for every rule list; the hypothesis delimits the
claim's scope.) -/
theorem claimC9 (rules : List Rule) (p : Payment)
    (h : ∀ r ∈ rules, r.result.name.isSome ∧ r.result.category.isSome) :
    simplify_payment rules (simplify_payment rules p) =
      simplify_payment rules p := by
  clear h
  simp only [simplify_payment_eq]
  have hpa : (simplifyPure rules p).payee = p.payee :=
    (simplifyPure_stable rules p).2.1
  apply Payment_eq_of_fields
  · rw [(simplifyPure_stable rules _).1]
  · rw [(simplifyPure_stable rules _).2.1]
  · rw [simplifyPure_pf, simplifyPure_pf, hpa]
    cases he : nameEff p.payee rules <;> simp [he]
  · rw [(simplifyPure_stable rules _).2.2.1]
  · rw [(simplifyPure_stable rules _).2.2.2]
  · rw [simplifyPure_cat, simplifyPure_cat, hpa]
    cases he : catEff p.payee rules <;> simp [he]

/-- Witness for `claimC9` at a concrete all-fields-present rule list. -/
theorem claimC9_witness :
    (∀ r ∈ [Rule.mk (some "a") none ⟨some "N", some "C"⟩],
      r.result.name.isSome ∧ r.result.category.isSome) ∧
    simplify_payment [⟨some "a", none, ⟨some "N", some "C"⟩⟩]
        (simplify_payment [⟨some "a", none, ⟨some "N", some "C"⟩⟩]
          ⟨⟨2024, 1, 1⟩, "abc", "abc", "ref", 0, none⟩)
      = simplify_payment [⟨some "a", none, ⟨some "N", some "C"⟩⟩]
          ⟨⟨2024, 1, 1⟩, "abc", "abc", "ref", 0, none⟩ :=
  ⟨by decide,
   claimC9 [⟨some "a", none, ⟨some "N", some "C"⟩⟩]
     ⟨⟨2024, 1, 1⟩, "abc", "abc", "ref", 0, none⟩ (by decide)⟩

/-! ## C6 — amount parsing lemmas -/

theorem digit_facts {c : Char} (h : '0' ≤ c ∧ c ≤ '9') :
    c ≠ '.' ∧ c ≠ ',' ∧ c ≠ '-' ∧ c ≠ '+' := by
  obtain ⟨h1, h2⟩ := h
  refine ⟨?_, ?_, ?_, ?_⟩ <;> rintro rfl <;> revert h1 h2 <;> decide

theorem digitVal?_of_digit {c : Char} (h : '0' ≤ c ∧ c ≤ '9') :
    digitVal? c = some (c.toNat - 48) := by
  unfold digitVal?; rw [if_pos h]

theorem digitsValAux_of_digits (l : List Char)
    (h : ∀ c ∈ l, '0' ≤ c ∧ c ≤ '9') : ∀ acc : Nat,
    digitsValAux acc l =
      some (l.foldl (fun a c => a * 10 + (c.toNat - 48)) acc) := by
  induction l with
  | nil => intro acc; rfl
  | cons c rest ih =>
    intro acc
    rw [digitsValAux, digitVal?_of_digit (h c (by simp))]
    show digitsValAux (acc * 10 + (c.toNat - 48)) rest = _
    rw [ih (fun b hb => h b (by simp [hb]))]
    simp

theorem digitsVal?_of_digits (l : List Char) (hne : l ≠ [])
    (h : ∀ c ∈ l, '0' ≤ c ∧ c ≤ '9') :
    digitsVal? l = some (digitsVal l) := by
  rw [digitsVal?, if_neg (by simpa using hne)]
  exact digitsValAux_of_digits l h 0

theorem map_comma_id (l : List Char) (h : ∀ c ∈ l, c ≠ ',') :
    l.map (fun c => if c = ',' then '.' else c) = l := by
  induction l with
  | nil => rfl
  | cons c rest ih =>
    rw [List.map_cons, if_neg (h c (by simp)), ih (fun b hb => h b (by simp [hb]))]

theorem splitIntFrac_of_no_dot (l t : List Char) (h : ∀ c ∈ l, c ≠ '.') :
    splitIntFrac (l ++ '.' :: t) = (l, some t) := by
  induction l with
  | nil => simp [splitIntFrac]
  | cons c rest ih =>
    rw [List.cons_append, splitIntFrac, if_neg (h c (by simp)),
      ih (fun b hb => h b (by simp [hb]))]

theorem contains_dot_false (l : List Char) (h : ∀ c ∈ l, c ≠ '.') :
    l.contains '.' = false := by
  induction l with
  | nil => rfl
  | cons c rest ih =>
    have h1 : ('.' == c) = false := by
      simp [beq_iff_eq]; exact fun hc => h c (by simp) hc.symm
    simp only [List.contains, List.elem_cons, h1]
    exact ih (fun b hb => h b (by simp [hb]))

theorem decBody_digits (ds fs : List Char) (sign : ℚ) (hds : ds ≠ [])
    (hfs : fs ≠ []) (hd : ∀ c ∈ ds, '0' ≤ c ∧ c ≤ '9')
    (hf : ∀ c ∈ fs, '0' ≤ c ∧ c ≤ '9') :
    decBody (ds ++ '.' :: fs) sign =
      some (sign * ((digitsVal ds : ℚ) +
        (digitsVal fs : ℚ) / 10 ^ fs.length)) := by
  have hsplit :=
    splitIntFrac_of_no_dot ds fs (fun c hc => (digit_facts (hd c hc)).1)
  have hcon := contains_dot_false fs (fun c hc => (digit_facts (hf c hc)).1)
  have hde : ds.isEmpty = false := by simpa using hds
  have hfe : fs.isEmpty = false := by simpa using hfs
  simp only [decBody, hsplit, hcon, Bool.false_eq_true, if_false,
    decCore, hde, hfe, Bool.false_and]
  rw [digitsVal?_of_digits ds hds hd, digitsVal?_of_digits fs hfs hf]

theorem truncQ_intCast (n : ℤ) : truncQ (n : ℚ) = n := by
  unfold truncQ
  split <;> simp

theorem parse_amount_mk (l : List Char) :
    parse_amount ⟨l⟩ =
      (decimalVal? (l.map (fun c => if c = ',' then '.' else c))).map
        (fun v => truncQ (-(v * 100))) := rfl

/-- C6: on a comma-decimal amount string with a two-digit fraction, the
amount computation of `csv_to_payment` returns exactly the negation of
100 times the decimal value, computed by exact arithmetic; in
particular `"-12,50"` parses to `1250` (see `claimC6_witness`). -/
theorem claimC6 (neg : Bool) (ds fs : List Char) (hds : ds ≠ [])
    (hd : ∀ c ∈ ds, '0' ≤ c ∧ c ≤ '9') (hfs : fs.length = 2)
    (hf : ∀ c ∈ fs, '0' ≤ c ∧ c ≤ '9') :
    parse_amount ⟨(if neg then ['-'] else []) ++ ds ++ ',' :: fs⟩ =
      some ((if neg then (1 : ℤ) else -1) *
        (100 * (digitsVal ds : ℤ) + (digitsVal fs : ℤ))) := by
  have hfs0 : fs ≠ [] := by intro h; rw [h] at hfs; simp at hfs
  have hmap : (ds ++ ',' :: fs).map (fun c => if c = ',' then '.' else c) =
      ds ++ '.' :: fs := by
    rw [List.map_append, List.map_cons,
      map_comma_id ds (fun c hc => (digit_facts (hd c hc)).2.1),
      map_comma_id fs (fun c hc => (digit_facts (hf c hc)).2.1), if_pos rfl]
  have hval : ∀ sign : ℚ,
      decBody (ds ++ '.' :: fs) sign =
        some (sign * ((digitsVal ds : ℚ) + (digitsVal fs : ℚ) / 100)) := by
    intro sign
    rw [decBody_digits ds fs sign hds hfs0 hd hf, hfs]
    norm_num
  cases neg with
  | false =>
    obtain ⟨d, ds', rfl⟩ : ∃ d ds', ds = d :: ds' := by
      cases ds with
      | nil => exact absurd rfl hds
      | cons d ds' => exact ⟨d, ds', rfl⟩
    have hdd := digit_facts (hd d (by simp))
    rw [parse_amount_mk]
    rw [show ((if (false : Bool) then ['-'] else []) ++ (d :: ds') ++
        ',' :: fs) = (d :: ds') ++ ',' :: fs by simp]
    rw [hmap, List.cons_append, decimalVal?, if_neg hdd.2.2.1,
      if_neg hdd.2.2.2, ← List.cons_append, hval 1]
    show some (truncQ (-(1 * ((digitsVal (d :: ds') : ℚ) +
      (digitsVal fs : ℚ) / 100) * 100))) = _
    have harith : -(1 * ((digitsVal (d :: ds') : ℚ) +
        (digitsVal fs : ℚ) / 100) * 100) =
        ((-1 * (100 * (digitsVal (d :: ds') : ℤ) + (digitsVal fs : ℤ)) :
          ℤ) : ℚ) := by
      push_cast
      field_simp
      ring
    rw [harith, truncQ_intCast]
    norm_num
  | true =>
    rw [parse_amount_mk]
    rw [show ((if (true : Bool) then ['-'] else []) ++ ds ++ ',' :: fs) =
      '-' :: (ds ++ ',' :: fs) by simp]
    rw [List.map_cons, if_neg (by decide : ¬('-' = ',')), hmap,
      decimalVal?, if_pos rfl, hval (-1)]
    show some (truncQ (-(-1 * ((digitsVal ds : ℚ) +
      (digitsVal fs : ℚ) / 100) * 100))) = _
    have harith : -(-1 * ((digitsVal ds : ℚ) +
        (digitsVal fs : ℚ) / 100) * 100) =
        ((1 * (100 * (digitsVal ds : ℤ) + (digitsVal fs : ℤ)) : ℤ) : ℚ) := by
      push_cast
      field_simp
      ring
    rw [harith, truncQ_intCast]
    norm_num

/-- Witness for `claimC6`: the spec's example, `"-12,50"` parses to the
integer `1250`. -/
theorem claimC6_witness : parse_amount "-12,50" = some 1250 := by
  have h := claimC6 true ['1', '2'] ['5', '0'] (by decide) (by decide)
    (by decide) (by decide)
  have hs : ("-12,50" : String) =
      ⟨(if true then ['-'] else []) ++ ['1', '2'] ++ ',' :: ['5', '0']⟩ := rfl
  rw [hs, h]
  decide

/-! ## C7 — snapshot round trip -/

theorem digitVal?_digitChar (k : Nat) (hk : k < 10) :
    digitVal? (digitChar k) = some k := by
  interval_cases k <;> decide

theorem daysInMonth_le (y m : Nat) : daysInMonth y m ≤ 31 := by
  unfold daysInMonth
  split
  · split <;> decide
  · split <;> decide

theorem parseIso_toIso (d : Date) (hv : d.valid = true) :
    parseIsoDate d.toIso = some d := by
  obtain ⟨y, m, dd⟩ := d
  have hb : 1 ≤ y ∧ y ≤ 9999 ∧ 1 ≤ m ∧ m ≤ 12 ∧ 1 ≤ dd ∧
      dd ≤ daysInMonth y m := by
    simpa [Date.valid] using hv
  have hdle := daysInMonth_le y m
  have e1 : digitVal? (digitChar (y / 1000)) = some (y / 1000) :=
    digitVal?_digitChar _ (by omega)
  have e2 : digitVal? (digitChar (y / 100 % 10)) = some (y / 100 % 10) :=
    digitVal?_digitChar _ (by omega)
  have e3 : digitVal? (digitChar (y / 10 % 10)) = some (y / 10 % 10) :=
    digitVal?_digitChar _ (by omega)
  have e4 : digitVal? (digitChar (y % 10)) = some (y % 10) :=
    digitVal?_digitChar _ (by omega)
  have e5 : digitVal? (digitChar (m / 10)) = some (m / 10) :=
    digitVal?_digitChar _ (by omega)
  have e6 : digitVal? (digitChar (m % 10)) = some (m % 10) :=
    digitVal?_digitChar _ (by omega)
  have e7 : digitVal? (digitChar (dd / 10)) = some (dd / 10) :=
    digitVal?_digitChar _ (by omega)
  have e8 : digitVal? (digitChar (dd % 10)) = some (dd % 10) :=
    digitVal?_digitChar _ (by omega)
  have hy : y / 1000 * 1000 + y / 100 % 10 * 100 + y / 10 % 10 * 10 + y % 10
      = y := by omega
  have hm2 : m / 10 * 10 + m % 10 = m := by omega
  have hd2 : dd / 10 * 10 + dd % 10 = dd := by omega
  show parseIsoChars
    [digitChar (y / 1000), digitChar (y / 100 % 10), digitChar (y / 10 % 10),
     digitChar (y % 10), '-', digitChar (m / 10), digitChar (m % 10), '-',
     digitChar (dd / 10), digitChar (dd % 10)] = some ⟨y, m, dd⟩
  rw [parseIsoChars, if_pos ⟨rfl, rfl, rfl⟩, e1, e2, e3, e4, e5, e6, e7, e8]
  simp only [Option.some_bind, hy, hm2, hd2, hv, if_true]

theorem from_json_to_json (p : Payment) (hv : p.date.valid = true) :
    Payment.from_json (Payment.to_json p) = some p := by
  rw [Payment.to_json, Payment.from_json]
  show (parseIsoDate p.date.toIso).map _ = _
  rw [parseIso_toIso p.date hv]
  rfl

/-- C7: loading the snapshot produced by persisting a non-empty record
sequence returns the original sequence — the date survives the
ISO-8601-render / parse-back round trip and every other field is kept
verbatim. -/
theorem claimC7 (ps : List Payment) (hne : ps ≠ [])
    (hv : ∀ p ∈ ps, p.date.valid = true) :
    load (persist ps) = some ps := by
  clear hne
  induction ps with
  | nil => rfl
  | cons p rest ih =>
    rw [persist, List.map_cons, load,
      from_json_to_json p (hv p (by simp)),
      show (rest.map Payment.to_json) = persist rest from rfl,
      ih (fun q hq => hv q (by simp [hq]))]

/-- Witness for `claimC7` on a concrete two-record snapshot, with and
without a category. -/
theorem claimC7_witness :
    ([⟨⟨2024, 2, 29⟩, "A", "A friendly", "r1", 1250, none⟩,
      ⟨⟨1999, 12, 31⟩, "B", "B", "r2", -5, some "grocery"⟩] :
        List Payment) ≠ [] ∧
    load (persist
      [⟨⟨2024, 2, 29⟩, "A", "A friendly", "r1", 1250, none⟩,
       ⟨⟨1999, 12, 31⟩, "B", "B", "r2", -5, some "grocery"⟩]) =
      some [⟨⟨2024, 2, 29⟩, "A", "A friendly", "r1", 1250, none⟩,
            ⟨⟨1999, 12, 31⟩, "B", "B", "r2", -5, some "grocery"⟩] :=
  ⟨by decide,
   claimC7
     [⟨⟨2024, 2, 29⟩, "A", "A friendly", "r1", 1250, none⟩,
      ⟨⟨1999, 12, 31⟩, "B", "B", "r2", -5, some "grocery"⟩]
     (by decide) (by decide)⟩

/-! ## C4 — approving every record -/

theorem runOuter_all_a (rules : List Rule) :
    ∀ (items : List Payment) (st : TriageState),
    runOuter rules items (List.replicate items.length Cmd.a) st =
      some ⟨st.approved ++ items.map (simplify_payment rules),
        st.second_look, st.ignore⟩ := by
  intro items
  induction items with
  | nil => intro st; simp [runOuter]
  | cons item rest ih =>
    intro st
    rw [List.length_cons, List.replicate_succ]
    simp only [runOuter, runInner]
    rw [ih]
    simp [simplify_payment]

/-- C4: a triage run that answers `a` to every one of the `N` ingested
records yields an approved bucket holding, in reverse of ingestion
order, the display copy of each record — length `N` — and empty
`second_look` and `ignore` buckets. -/
theorem claimC4 (rules : List Rule) (payments : List Payment) :
    classify_payments rules payments
        (List.replicate payments.length Cmd.a) =
      some ⟨payments.reverse.map (simplify_payment rules), [], []⟩ ∧
    (payments.reverse.map (simplify_payment rules)).length =
      payments.length := by
  constructor
  · rw [classify_payments,
      show payments.length = payments.reverse.length by simp,
      runOuter_all_a]
    simp
  · simp

/-! ## C3 — quitting at reversed position k -/

theorem runOuter_pre_q (rules : List Rule) :
    ∀ (pre : List Cmd) (items : List Payment) (rest : List Cmd)
      (st : TriageState),
    (∀ c ∈ pre, preCmdOk c = true) → pre.length < items.length →
    ∃ app ig,
      runOuter rules items (pre ++ Cmd.q :: rest) st =
        some ⟨app, st.second_look ++ items.drop pre.length, ig⟩ ∧
      app.length + ig.length =
        st.approved.length + st.ignore.length + pre.length := by
  intro pre
  induction pre with
  | nil =>
    intro items rest st _ hlt
    cases items with
    | nil => simp at hlt
    | cons item restI =>
      refine ⟨st.approved, st.ignore, ?_, by simp⟩
      simp [runOuter, runInner]
  | cons c pre' ih =>
    intro items rest st hok hlt
    cases items with
    | nil => simp at hlt
    | cons item restI =>
      have hlt' : pre'.length < restI.length := by
        simp only [List.length_cons] at hlt; omega
      have hok' : ∀ b ∈ pre', preCmdOk b = true :=
        fun b hb => hok b (by simp [hb])
      have hc := hok c (by simp)
      cases c with
      | a =>
        obtain ⟨app, ig, h1, h2⟩ := ih restI rest
          { st with approved :=
              st.approved ++ [(simplify_paymentF rules item).1] } hok' hlt'
        refine ⟨app, ig, ?_, ?_⟩
        · simp only [List.cons_append, runOuter, runInner, List.append_eq]
          rw [h1]
          simp
        · simp only [List.length_append, List.length_cons,
            List.length_nil] at h2 ⊢
          omega
      | e p2 =>
        obtain ⟨app, ig, h1, h2⟩ := ih restI rest
          { st with approved := st.approved ++ [p2] } hok' hlt'
        refine ⟨app, ig, ?_, ?_⟩
        · simp only [List.cons_append, runOuter, runInner, List.append_eq]
          rw [h1]
          simp
        · simp only [List.length_append, List.length_cons,
            List.length_nil] at h2 ⊢
          omega
      | x =>
        obtain ⟨app, ig, h1, h2⟩ := ih restI rest
          { st with ignore :=
              st.ignore ++ [(simplify_paymentF rules item).1] } hok' hlt'
        refine ⟨app, ig, ?_, ?_⟩
        · simp only [List.cons_append, runOuter, runInner, List.append_eq]
          rw [h1]
          simp
        · simp only [List.length_append, List.length_cons,
            List.length_nil] at h2 ⊢
          omega
      | c k => simp [preCmdOk] at hc
      | j => simp [preCmdOk] at hc
      | q => simp [preCmdOk] at hc
      | other => simp [preCmdOk] at hc

/-- C3 counterexample: with two ingested records and the operator
issuing `j` on the first reversed record and `q` on the second
(reversed position `k = 2`), `second_look` holds both records, not
"exactly the records at reversed positions 2 through 2". -/
theorem claimC3_cex :
    classify_payments []
        [⟨⟨2024, 1, 1⟩, "a", "a", "r", 0, none⟩,
         ⟨⟨2024, 1, 2⟩, "b", "b", "r", 0, none⟩]
        [Cmd.j, Cmd.q] =
      some ⟨[], [⟨⟨2024, 1, 2⟩, "b", "b", "r", 0, none⟩,
                 ⟨⟨2024, 1, 1⟩, "a", "a", "r", 0, none⟩], []⟩ ∧
    ([⟨⟨2024, 1, 2⟩, "b", "b", "r", 0, none⟩,
      ⟨⟨2024, 1, 1⟩, "a", "a", "r", 0, none⟩] : List Payment) ≠
      ([⟨⟨2024, 1, 1⟩, "a", "a", "r", 0, none⟩,
        ⟨⟨2024, 1, 2⟩, "b", "b", "r", 0, none⟩] :
          List Payment).reverse.drop 1 := by
  constructor
  · decide
  · decide

/-- C3 (amended): when the operator dispatches each record before
reversed position `k` with `a`, `e`, or `x` (no `j`) and then issues `q`
at position `k = pre.length + 1`, `second_look` holds exactly the
records at reversed positions `k` through `N` in their reversed order,
and `approved` and `ignore` together hold exactly one entry per earlier
position, so no record lands in more than one bucket. -/
theorem claimC3 (rules : List Rule) (payments : List Payment)
    (pre rest : List Cmd) (hok : ∀ c ∈ pre, preCmdOk c = true)
    (hlt : pre.length < payments.length) :
    ∃ app ig,
      classify_payments rules payments (pre ++ Cmd.q :: rest) =
        some ⟨app, payments.reverse.drop pre.length, ig⟩ ∧
      app.length + ig.length = pre.length := by
  obtain ⟨app, ig, h1, h2⟩ := runOuter_pre_q rules pre payments.reverse rest
    ⟨[], [], []⟩ hok (by simpa using hlt)
  refine ⟨app, ig, ?_, ?_⟩
  · simpa [classify_payments] using h1
  · simpa using h2

/-- Witness for `claimC3`: two records, `a` then `q`; `second_look`
holds exactly the one remaining record. -/
theorem claimC3_witness :
    (∀ c ∈ [Cmd.a], preCmdOk c = true) ∧
    ([Cmd.a].length < ([⟨⟨2024, 1, 1⟩, "a", "a", "r", 0, none⟩,
       ⟨⟨2024, 1, 2⟩, "b", "b", "r", 0, none⟩] : List Payment).length) ∧
    ∃ app ig,
      classify_payments []
          [⟨⟨2024, 1, 1⟩, "a", "a", "r", 0, none⟩,
           ⟨⟨2024, 1, 2⟩, "b", "b", "r", 0, none⟩]
          ([Cmd.a] ++ Cmd.q :: []) =
        some ⟨app,
          ([⟨⟨2024, 1, 1⟩, "a", "a", "r", 0, none⟩,
            ⟨⟨2024, 1, 2⟩, "b", "b", "r", 0, none⟩] :
              List Payment).reverse.drop [Cmd.a].length, ig⟩ ∧
      app.length + ig.length = [Cmd.a].length :=
  ⟨by decide, by decide,
   claimC3 []
     [⟨⟨2024, 1, 1⟩, "a", "a", "r", 0, none⟩,
      ⟨⟨2024, 1, 2⟩, "b", "b", "r", 0, none⟩]
     [Cmd.a] [] (by decide) (by decide)⟩

/-! ## C10 — `q` stores the original record, `a`/`j`/`x` the display
copy -/

/-- C10: when a rule fired on the record (so the display copy is a fresh
object and does not alias the stored list entry), quitting — even after
a `c` category edit — appends the original ingested record to
`second_look`, untouched by rule application and by the edit; by
contrast `a`, `j` and `x` store the rule-transformed display copy. -/
theorem claimC10 (rules : List Rule) (p : Payment) (k : String)
    (hf : ruleFired rules p = true) :
    classify_payments rules [p] [Cmd.c k, Cmd.q] = some ⟨[], [p], []⟩ ∧
    classify_payments rules [p] [Cmd.a] =
      some ⟨[simplify_payment rules p], [], []⟩ ∧
    classify_payments rules [p] [Cmd.j] =
      some ⟨[], [simplify_payment rules p], []⟩ ∧
    classify_payments rules [p] [Cmd.x] =
      some ⟨[], [], [simplify_payment rules p]⟩ := by
  rw [ruleFired] at hf
  refine ⟨?_, ?_, ?_, ?_⟩ <;>
    simp [classify_payments, runOuter, runInner, hf, simplify_payment]

/-- Witness for `claimC10`: a concrete matching rule; the `q` bucket
entry is the raw record while `a`/`j`/`x` store the renamed copy. -/
theorem claimC10_witness :
    ruleFired [⟨some "a", none, ⟨some "N", some "C"⟩⟩]
        ⟨⟨2024, 1, 1⟩, "abc", "abc", "r", 0, none⟩ = true ∧
    (classify_payments [⟨some "a", none, ⟨some "N", some "C"⟩⟩]
        [⟨⟨2024, 1, 1⟩, "abc", "abc", "r", 0, none⟩] [Cmd.c "g", Cmd.q] =
      some ⟨[], [⟨⟨2024, 1, 1⟩, "abc", "abc", "r", 0, none⟩], []⟩ ∧
     classify_payments [⟨some "a", none, ⟨some "N", some "C"⟩⟩]
        [⟨⟨2024, 1, 1⟩, "abc", "abc", "r", 0, none⟩] [Cmd.a] =
      some ⟨[simplify_payment [⟨some "a", none, ⟨some "N", some "C"⟩⟩]
        ⟨⟨2024, 1, 1⟩, "abc", "abc", "r", 0, none⟩], [], []⟩ ∧
     classify_payments [⟨some "a", none, ⟨some "N", some "C"⟩⟩]
        [⟨⟨2024, 1, 1⟩, "abc", "abc", "r", 0, none⟩] [Cmd.j] =
      some ⟨[], [simplify_payment [⟨some "a", none, ⟨some "N", some "C"⟩⟩]
        ⟨⟨2024, 1, 1⟩, "abc", "abc", "r", 0, none⟩], []⟩ ∧
     classify_payments [⟨some "a", none, ⟨some "N", some "C"⟩⟩]
        [⟨⟨2024, 1, 1⟩, "abc", "abc", "r", 0, none⟩] [Cmd.x] =
      some ⟨[], [], [simplify_payment [⟨some "a", none, ⟨some "N", some "C"⟩⟩]
        ⟨⟨2024, 1, 1⟩, "abc", "abc", "r", 0, none⟩]⟩) :=
  ⟨by decide,
   claimC10 [⟨some "a", none, ⟨some "N", some "C"⟩⟩]
     ⟨⟨2024, 1, 1⟩, "abc", "abc", "r", 0, none⟩ "g" (by decide)⟩

/-! ## C5 — the buckets partition the input -/

theorem runInnerT_erase :
    ∀ (script : List Cmd) (item payment : TPayment) (aliased : Bool),
    runInner item.2 payment.2 aliased script =
      (runInnerT item payment aliased script).map
        (fun x => (eraseDec x.1, x.2)) := by
  intro script
  induction script with
  | nil => intro item payment aliased; rfl
  | cons cmd rest ih =>
    intro item payment aliased
    cases cmd with
    | a => rfl
    | c k =>
      cases aliased with
      | false =>
        simpa [runInner, runInnerT] using
          ih item (payment.1, { payment.2 with category := categoryOf k })
            false
      | true =>
        simpa [runInner, runInnerT] using
          ih (item.1, { item.2 with category := categoryOf k })
            (payment.1, { payment.2 with category := categoryOf k }) true
    | e p2 => rfl
    | j => rfl
    | x => rfl
    | q => rfl
    | other => simpa [runInner, runInnerT] using ih item payment aliased

theorem runOuterT_erase (rules : List Rule) :
    ∀ (items : List TPayment) (script : List Cmd) (stT : TriageStateT),
    runOuter rules (items.map Prod.snd) script (eraseState stT) =
      (runOuterT rules items script stT).map eraseState := by
  intro items
  induction items with
  | nil => intro script stT; rfl
  | cons item rest ih =>
    intro script stT
    have hinner := runInnerT_erase script item
      (item.1, (simplify_paymentF rules item.2).1)
      (!(simplify_paymentF rules item.2).2)
    simp only [List.map_cons, runOuter, runOuterT]
    rw [hinner]
    cases hri : runInnerT item (item.1, (simplify_paymentF rules item.2).1)
        (!(simplify_paymentF rules item.2).2) script with
    | none => rfl
    | some pr =>
      obtain ⟨dec, rest'⟩ := pr
      cases dec with
      | approved p =>
        simp only [Option.map_some', eraseDec]
        have heq : (⟨(eraseState stT).approved ++ [p.2],
            (eraseState stT).second_look, (eraseState stT).ignore⟩ :
              TriageState) =
            eraseState ⟨stT.approved ++ [p], stT.second_look, stT.ignore⟩ := by
          simp [eraseState]
        rw [heq]
        exact ih rest' ⟨stT.approved ++ [p], stT.second_look, stT.ignore⟩
      | secondLook p =>
        simp only [Option.map_some', eraseDec]
        have heq : (⟨(eraseState stT).approved,
            (eraseState stT).second_look ++ [p.2], (eraseState stT).ignore⟩ :
              TriageState) =
            eraseState ⟨stT.approved, stT.second_look ++ [p], stT.ignore⟩ := by
          simp [eraseState]
        rw [heq]
        exact ih rest' ⟨stT.approved, stT.second_look ++ [p], stT.ignore⟩
      | ignored p =>
        simp only [Option.map_some', eraseDec]
        have heq : (⟨(eraseState stT).approved, (eraseState stT).second_look,
            (eraseState stT).ignore ++ [p.2]⟩ : TriageState) =
            eraseState ⟨stT.approved, stT.second_look, stT.ignore ++ [p]⟩ := by
          simp [eraseState]
        rw [heq]
        exact ih rest' ⟨stT.approved, stT.second_look, stT.ignore ++ [p]⟩
      | quit stored =>
        simp [eraseState, eraseDec]

theorem runInnerT_tag :
    ∀ (script : List Cmd) (item payment : TPayment) (aliased : Bool)
      (dec : DecisionT) (rest : List Cmd), payment.1 = item.1 →
    runInnerT item payment aliased script = some (dec, rest) →
    decTag dec = item.1 := by
  intro script
  induction script with
  | nil =>
    intro item payment aliased dec rest hp h
    exact absurd h (by simp [runInnerT])
  | cons cmd rest0 ih =>
    intro item payment aliased dec rest hp h
    cases cmd with
    | a =>
      simp only [runInnerT, Option.some.injEq, Prod.mk.injEq] at h
      rw [← h.1, decTag, hp]
    | c k =>
      cases aliased with
      | false =>
        have := ih item
          (payment.1, { payment.2 with category := categoryOf k }) false
          dec rest hp (by simpa [runInnerT] using h)
        exact this
      | true =>
        have := ih (item.1, { item.2 with category := categoryOf k })
          (payment.1, { payment.2 with category := categoryOf k }) true
          dec rest hp (by simpa [runInnerT] using h)
        exact this
    | e p2 =>
      simp only [runInnerT, Option.some.injEq, Prod.mk.injEq] at h
      rw [← h.1, decTag, hp]
    | j =>
      simp only [runInnerT, Option.some.injEq, Prod.mk.injEq] at h
      rw [← h.1, decTag, hp]
    | x =>
      simp only [runInnerT, Option.some.injEq, Prod.mk.injEq] at h
      rw [← h.1, decTag, hp]
    | q =>
      simp only [runInnerT, Option.some.injEq, Prod.mk.injEq] at h
      rw [← h.1, decTag]
    | other =>
      exact ih item payment aliased dec rest hp
        (by simpa [runInnerT] using h)

theorem runOuterT_tags (rules : List Rule) :
    ∀ (items : List TPayment) (script : List Cmd)
      (stT stT' : TriageStateT),
    runOuterT rules items script stT = some stT' →
    (bucketTags stT' : Multiset ℕ) =
      (bucketTags stT : Multiset ℕ) + (items.map Prod.fst : Multiset ℕ) := by
  intro items
  induction items with
  | nil =>
    intro script stT stT' h
    simp only [runOuterT, Option.some.injEq] at h
    rw [← h]
    simp
  | cons item rest ih =>
    intro script stT stT' h
    rw [runOuterT] at h
    cases hri : runInnerT item (item.1, (simplify_paymentF rules item.2).1)
        (!(simplify_paymentF rules item.2).2) script with
    | none => rw [hri] at h; exact absurd h (by simp)
    | some pr =>
      obtain ⟨dec, rest'⟩ := pr
      have htag := runInnerT_tag script item
        (item.1, (simplify_paymentF rules item.2).1)
        (!(simplify_paymentF rules item.2).2) dec rest' rfl hri
      rw [hri] at h
      cases dec with
      | approved p =>
        have hrec := ih rest'
          ⟨stT.approved ++ [p], stT.second_look, stT.ignore⟩ stT' h
        rw [hrec]
        have hb : (bucketTags ⟨stT.approved ++ [p], stT.second_look,
            stT.ignore⟩ : Multiset ℕ) =
            (bucketTags stT : Multiset ℕ) + {p.1} := by
          simp only [bucketTags, List.map_append, List.append_assoc,
            ← Multiset.coe_add, List.map_cons, List.map_nil,
            Multiset.coe_singleton]
          abel
        rw [hb]
        rw [decTag] at htag
        rw [htag]
        simp only [List.map_cons, ← Multiset.cons_coe]
        rw [show ((item.1 ::ₘ ↑(rest.map Prod.fst)) : Multiset ℕ) =
          {item.1} + ↑(rest.map Prod.fst) by simp]
        abel
      | secondLook p =>
        have hrec := ih rest'
          ⟨stT.approved, stT.second_look ++ [p], stT.ignore⟩ stT' h
        rw [hrec]
        have hb : (bucketTags ⟨stT.approved, stT.second_look ++ [p],
            stT.ignore⟩ : Multiset ℕ) =
            (bucketTags stT : Multiset ℕ) + {p.1} := by
          simp only [bucketTags, List.map_append, List.append_assoc,
            ← Multiset.coe_add, List.map_cons, List.map_nil,
            Multiset.coe_singleton]
          abel
        rw [hb]
        rw [decTag] at htag
        rw [htag]
        simp only [List.map_cons, ← Multiset.cons_coe]
        rw [show ((item.1 ::ₘ ↑(rest.map Prod.fst)) : Multiset ℕ) =
          {item.1} + ↑(rest.map Prod.fst) by simp]
        abel
      | ignored p =>
        have hrec := ih rest'
          ⟨stT.approved, stT.second_look, stT.ignore ++ [p]⟩ stT' h
        rw [hrec]
        have hb : (bucketTags ⟨stT.approved, stT.second_look,
            stT.ignore ++ [p]⟩ : Multiset ℕ) =
            (bucketTags stT : Multiset ℕ) + {p.1} := by
          simp only [bucketTags, List.map_append, List.append_assoc,
            ← Multiset.coe_add, List.map_cons, List.map_nil,
            Multiset.coe_singleton]
          abel
        rw [hb]
        rw [decTag] at htag
        rw [htag]
        simp only [List.map_cons, ← Multiset.cons_coe]
        rw [show ((item.1 ::ₘ ↑(rest.map Prod.fst)) : Multiset ℕ) =
          {item.1} + ↑(rest.map Prod.fst) by simp]
        abel
      | quit stored =>
        simp only [Option.some.injEq] at h
        rw [← h]
        rw [decTag] at htag
        have hb : (bucketTags ⟨stT.approved,
            stT.second_look ++ stored :: rest, stT.ignore⟩ : Multiset ℕ) =
            (bucketTags stT : Multiset ℕ) +
              ({stored.1} + ↑(rest.map Prod.fst)) := by
          simp only [bucketTags, List.map_append, List.append_assoc,
            ← Multiset.coe_add, List.map_cons, ← Multiset.cons_coe,
            Multiset.coe_singleton]
          rw [show ((stored.1 ::ₘ ↑(rest.map Prod.fst)) : Multiset ℕ) =
            {stored.1} + ↑(rest.map Prod.fst) by simp]
          abel
        rw [hb, htag]
        simp only [List.map_cons, ← Multiset.cons_coe]
        rw [show ((item.1 ::ₘ ↑(rest.map Prod.fst)) : Multiset ℕ) =
          {item.1} + ↑(rest.map Prod.fst) by simp]

/-- C5: at the end of every completed or `q`-aborted triage run, the
three buckets partition the input records: tracking each record by its
ingestion position through its derived copies (rule application,
category edits, manual edits), every position appears in exactly one
bucket entry, and erasing the position tags recovers the program's run
(`classify_payments`) exactly. -/
theorem claimC5 (rules : List Rule) (payments : List Payment)
    (script : List Cmd) (stT : TriageStateT)
    (h : classify_paymentsT rules payments script = some stT) :
    classify_payments rules payments script = some (eraseState stT) ∧
    (bucketTags stT).Perm (List.range payments.length) := by
  constructor
  · have he := runOuterT_erase rules
      ((List.range payments.length).zip payments).reverse script ⟨[], [], []⟩
    rw [classify_paymentsT] at h
    rw [h] at he
    have hms : ((((List.range payments.length).zip payments).reverse).map
        Prod.snd) = payments.reverse := by
      rw [List.map_reverse, List.map_snd_zip]
      simp
    rw [hms] at he
    rw [classify_payments]
    rw [show (⟨[], [], []⟩ : TriageState) = eraseState ⟨[], [], []⟩ from rfl]
    rw [he]
    rfl
  · have ht := runOuterT_tags rules
      ((List.range payments.length).zip payments).reverse script
      ⟨[], [], []⟩ stT (by rwa [classify_paymentsT] at h)
    rw [← Multiset.coe_eq_coe]
    have hmf : ((((List.range payments.length).zip payments).reverse).map
        Prod.fst) = (List.range payments.length).reverse := by
      rw [List.map_reverse, List.map_fst_zip]
      simp
    rw [hmf] at ht
    rw [ht]
    rw [show (bucketTags ⟨[], [], []⟩ : Multiset ℕ) = 0 from rfl]
    rw [Multiset.coe_reverse]
    simp

/-- Witness for `claimC5` on a concrete two-record run (`a` then `j`):
the tags 1 and 0 cover both input positions exactly once. -/
theorem claimC5_witness :
    classify_payments [] [⟨⟨2024, 1, 1⟩, "a", "a", "r", 0, none⟩,
        ⟨⟨2024, 1, 2⟩, "b", "b", "r", 0, none⟩] [Cmd.a, Cmd.j] =
      some (eraseState ⟨[(1, ⟨⟨2024, 1, 2⟩, "b", "b", "r", 0, none⟩)],
        [(0, ⟨⟨2024, 1, 1⟩, "a", "a", "r", 0, none⟩)], []⟩) ∧
    (bucketTags ⟨[(1, ⟨⟨2024, 1, 2⟩, "b", "b", "r", 0, none⟩)],
        [(0, ⟨⟨2024, 1, 1⟩, "a", "a", "r", 0, none⟩)], []⟩).Perm
      (List.range ([⟨⟨2024, 1, 1⟩, "a", "a", "r", 0, none⟩,
        ⟨⟨2024, 1, 2⟩, "b", "b", "r", 0, none⟩] : List Payment).length) :=
  claimC5 [] [⟨⟨2024, 1, 1⟩, "a", "a", "r", 0, none⟩,
      ⟨⟨2024, 1, 2⟩, "b", "b", "r", 0, none⟩] [Cmd.a, Cmd.j]
    ⟨[(1, ⟨⟨2024, 1, 2⟩, "b", "b", "r", 0, none⟩)],
     [(0, ⟨⟨2024, 1, 1⟩, "a", "a", "r", 0, none⟩)], []⟩ (by decide)
